import Mathlib

/-!
Verification of the crawl orchestration and content-chunking engine of the
crawl4ai REST API (`src/rest_api.py`) against its natural-language
specification.  The Python source is shallowly embedded: strings are modelled
as `List Char`, Python `set`s as duplicate-free lists in insertion order,
network and store effects as explicit oracle functions, and exceptions as
`Except`.  All definitions are executable.
-/

/-- Python strings are modelled as lists of characters. -/
abbrev Str := List Char

/-- Whitespace characters stripped by Python `str.strip()` (ASCII subset:
space, tab, newline, carriage return, vertical tab, form feed). -/
def isSpaceChar (c : Char) : Bool :=
  c == ' ' || c == '\t' || c == '\n' || c == '\r' ||
  c == Char.ofNat 11 || c == Char.ofNat 12

/-- `s.lstrip()` for whitespace: drop leading whitespace characters. -/
def stripLeadingWs (s : Str) : Str := s.dropWhile isSpaceChar

/-- Python `str.strip()`: remove leading and trailing whitespace. -/
def strip (s : Str) : Str :=
  (stripLeadingWs (stripLeadingWs s).reverse).reverse

/-- Whether `pat` occurs at the very front of `s` (character-wise). -/
def listMatch : Str → Str → Bool
  | [], _ => true
  | _ :: _, [] => false
  | a :: ps, b :: ss => a == b && listMatch ps ss

/-- Whether `pat` occurs in `s` starting at index `i`. -/
def occursAt (pat s : Str) (i : Nat) : Bool := listMatch pat (s.drop i)

/-- Python `s.rfind(pat)`: index of the last occurrence of `pat` in `s`
(`none` models the return value `-1`). -/
def rfindSub (pat s : Str) : Option Nat :=
  ((List.range (s.length + 1)).filter (occursAt pat s)).getLast?

/-- Python `pat in s` (substring containment). -/
def containsSub (pat s : Str) : Bool := (rfindSub pat s).isSome

/-- Python `s.endswith(suf)`. -/
def endsWith (s suf : Str) : Bool := listMatch suf (s.drop (s.length - suf.length))

/-- Python slice `text[a:b]` (for `0 ≤ a ≤ b ≤ len`; clamps like Python). -/
def sliceStr (text : Str) (a b : Nat) : Str := (text.drop a).take (b - a)

/-! ## Chunker (`smart_chunk_markdown`, rest_api.py lines 342-385) -/

/-- The code-fence marker, three backtick characters (`chr 96`). -/
def fenceMark : Str := [Char.ofNat 96, Char.ofNat 96, Char.ofNat 96]

/-- The paragraph-break marker, a double newline. -/
def paraMark : Str := ['\n', '\n']

/-- The sentence-break marker, a period followed by a space. -/
def sentMark : Str := ['.', ' ']

/-- The 30%-of-`chunk_size` acceptance threshold: Python
`i > chunk_size * 0.3`, in exact arithmetic `10 * i > 3 * cs`. -/
def past30 (cs i : Nat) : Bool := 3 * cs < 10 * i

/-- The `elif '\n\n' in chunk ... elif '. ' in chunk ...` part of the break
point selection in `smart_chunk_markdown`: reached only when the code-fence
test failed.  `e0 = start + chunk_size` is the unadjusted window end. -/
def chooseEndPara (cs start e0 : Nat) (w : Str) : Nat :=
  match rfindSub paraMark w with
  | some lb => if past30 cs lb then start + lb else e0
  | none =>
    match rfindSub sentMark w with
    | some lp => if past30 cs lp then start + lp + 1 else e0
    | none => e0

/-- Break-point selection of `smart_chunk_markdown` for a window `w` of the
text starting at `start` (Python lines 358-374): first the code-fence rule
(`if code_block != -1 and code_block > chunk_size * 0.3`), then the
paragraph / sentence `elif` chain. -/
def chooseEnd (cs start : Nat) (w : Str) : Nat :=
  match rfindSub fenceMark w with
  | some cb => if past30 cs cb then start + cb else chooseEndPara cs start (start + cs) w
  | none => chooseEndPara cs start (start + cs) w

/-- The `while start < text_length` loop of `smart_chunk_markdown`,
fuel-indexed (`none` = the given fuel was exhausted, i.e. the Python loop
would still be running after that many iterations). -/
def chunkLoop (cs : Nat) (text : Str) : Nat → Nat → List Str → Option (List Str)
  | 0, _, _ => none
  | fuel + 1, start, acc =>
    if start < text.length then
      if text.length ≤ start + cs then
        some (acc ++ [strip (text.drop start)])
      else
        let w := sliceStr text start (start + cs)
        let e := chooseEnd cs start w
        let c := strip (sliceStr text start e)
        chunkLoop cs text fuel e (if c = [] then acc else acc ++ [c])
    else some acc

/-- `smart_chunk_markdown(text, chunk_size)` (rest_api.py lines 342-385).
Fuel `text.length + 1` is sufficient whenever `1 ≤ cs` (each iteration
advances `start` by at least one); for `cs = 0` on non-empty text the Python
loop never terminates and the model falls back to `[]`. -/
def smart_chunk_markdown (text : Str) (cs : Nat) : List Str :=
  (chunkLoop cs text (text.length + 1) 0 []).getD []

/-! ## URL parsing (CPython `urllib.parse`, as called by rest_api.py)

The repository calls `urlparse`, `urldefrag` from the standard library; the
model below translates the relevant part of CPython's `urlsplit` /
`urlparse` / `urlunparse` / `urldefrag`.  Modelling assumptions: only the
value-producing paths are modelled — the `ValueError` raised by `urlsplit`
for unbalanced `[`/`]` in a netloc and the non-ASCII `_checknetloc` check are
outside the model (they concern malformed IPv6 / non-ASCII authorities). -/

/-- WHATWG C0-control-or-space characters, stripped from the front of a URL
by CPython's `urlsplit`. -/
def isC0OrSpace (c : Char) : Bool := c.toNat ≤ 32

/-- CPython `_UNSAFE_URL_BYTES_TO_REMOVE`: tab, carriage return, newline are
removed anywhere in the URL. -/
def isUnsafeUrlChar (c : Char) : Bool := c == '\t' || c == '\r' || c == '\n'

/-- CPython `scheme_chars`: ASCII letters, digits, `+`, `-`, `.`. -/
def schemeChar (c : Char) : Bool :=
  c.isAlpha || c.isDigit || c == '+' || c == '-' || c == '.'

/-- Result of `urlparse`: the six components (params split out of the path
for schemes in `uses_params`). -/
structure UrlParts where
  scheme : Str
  netloc : Str
  path : Str
  params : Str
  query : Str
  fragment : Str
deriving DecidableEq

/-- Characters ending the netloc: CPython `_splitnetloc` scans for the first
of `/`, `?`, `#`. -/
def netlocEnd (c : Char) : Bool := c == '/' || c == '?' || c == '#'

/-- Preprocessing at the top of CPython `urlsplit`: strip leading
C0-control-or-space characters, remove tab / CR / LF anywhere. -/
def preUrl (url : Str) : Str :=
  (url.dropWhile isC0OrSpace).filter (fun c => !isUnsafeUrlChar c)

/-- Scheme extraction in CPython `urlsplit`: split at the first `:` when the
part before it is a valid scheme (first char an ASCII letter, all chars in
`scheme_chars`); the scheme is lower-cased. -/
def splitScheme (url : Str) : Str × Str :=
  match url.findIdx? (fun c => c == ':') with
  | some i =>
    if 0 < i && (url.headD ' ').isAlpha && (url.take i).all schemeChar then
      ((url.take i).map Char.toLower, url.drop (i + 1))
    else ([], url)
  | none => ([], url)

/-- CPython `_splitnetloc` step: when the rest starts with `//`, the netloc
runs to the first `/`, `?` or `#`. -/
def splitNetloc (rest : Str) : Str × Str :=
  if rest.take 2 = ['/', '/'] then
    ((rest.drop 2).takeWhile (fun c => !netlocEnd c),
     (rest.drop 2).dropWhile (fun c => !netlocEnd c))
  else ([], rest)

/-- Python `s.split(ch, 1)` as used by `urlsplit` for `#` and `?`: when `ch`
occurs, the part before its first occurrence and the part after; otherwise
`(s, [])`. -/
def splitAtChar (ch : Char) (s : Str) : Str × Str :=
  if s.any (fun c => c == ch) then
    (s.takeWhile (fun c => !(c == ch)), (s.dropWhile (fun c => !(c == ch))).drop 1)
  else (s, [])

/-- CPython `urlsplit(url)` (allow_fragments = True), params not yet split;
returns (scheme, netloc, path, query, fragment). -/
def urlsplit (url0 : Str) : Str × Str × Str × Str × Str :=
  let sr := splitScheme (preUrl url0)
  let nr := splitNetloc sr.2
  let fr := splitAtChar '#' nr.2
  let qr := splitAtChar '?' fr.1
  (sr.1, nr.1, qr.1, qr.2, fr.2)

/-- CPython `uses_params`: schemes for which `urlparse` splits `;params`
off the last path segment. -/
def usesParams (s : Str) : Bool :=
  s ∈ ([[], "ftp".data, "hdl".data, "prospero".data, "http".data, "imap".data,
        "https".data, "shttp".data, "rtsp".data, "rtspu".data, "sip".data,
        "sips".data, "mms".data, "sftp".data, "tel".data] : List Str)

/-- CPython `_splitparams(url)`: split at the first `;` at or after the last
`/` (or the first `;` overall when there is no `/`). -/
def splitparams (url : Str) : Str × Str :=
  if url.any (fun c => c == '/') then
    let r := (rfindSub ['/'] url).getD 0
    match (url.drop r).findIdx? (fun c => c == ';') with
    | some j => (url.take (r + j), url.drop (r + j + 1))
    | none => (url, [])
  else
    match url.findIdx? (fun c => c == ';') with
    | some i => (url.take i, url.drop (i + 1))
    | none => (url, [])

/-- CPython `urlparse(url)` (rest_api.py imports and uses this). -/
def urlparse (url : Str) : UrlParts :=
  let sp := urlsplit url
  let scheme := sp.1
  let netloc := sp.2.1
  let path0 := sp.2.2.1
  let query := sp.2.2.2.1
  let fragment := sp.2.2.2.2
  if usesParams scheme && path0.any (fun c => c == ';') then
    let pp := splitparams path0
    ⟨scheme, netloc, pp.1, pp.2, query, fragment⟩
  else
    ⟨scheme, netloc, path0, [], query, fragment⟩

/-- CPython `urlunsplit((scheme, netloc, url, query, fragment))`. -/
def urlunsplit (scheme netloc url query fragment : Str) : Str :=
  let url1 :=
    if netloc ≠ [] || url.take 2 = ['/', '/'] then
      ['/', '/'] ++ netloc ++
        (if url ≠ [] && (url.headD '/') != '/' then '/' :: url else url)
    else url
  let url2 := if scheme ≠ [] then scheme ++ ':' :: url1 else url1
  let url3 := if query ≠ [] then url2 ++ '?' :: query else url2
  if fragment ≠ [] then url3 ++ '#' :: fragment else url3

/-- CPython `urlunparse`: re-attach params to the path, then `urlunsplit`. -/
def urlunparse (scheme netloc path params query fragment : Str) : Str :=
  let u := if params ≠ [] then path ++ ';' :: params else path
  urlunsplit scheme netloc u query fragment

/-- CPython `urldefrag(url)`, first component: if the raw URL contains `#`,
parse it and re-assemble it without its fragment; otherwise return it
unchanged. -/
def urldefrag (url : Str) : Str :=
  if url.any (fun c => c == '#') then
    let p := urlparse url
    urlunparse p.scheme p.netloc p.path p.params p.query []
  else url

/-- `normalize_url` (rest_api.py lines 1792-1793): `urldefrag(url)[0]`. -/
def normalize_url (url : Str) : Str := urldefrag url

/-- `is_sitemap` (rest_api.py lines 320-322): the raw URL ends in
`sitemap.xml`, or the parsed path contains `sitemap`. -/
def is_sitemap (url : Str) : Bool :=
  endsWith url "sitemap.xml".data || containsSub "sitemap".data (urlparse url).path

/-- `is_txt` (rest_api.py lines 324-326). -/
def is_txt (url : Str) : Bool := endsWith url ".txt".data

/-- The three crawl types `smart_crawl_url` distinguishes. -/
inductive CrawlType where
  | sitemap
  | txtFile
  | webpage
deriving DecidableEq

/-- URL classification in `smart_crawl_url` (rest_api.py lines 1559-1584):
`if is_sitemap(url): ... elif is_txt(url): ... else: webpage`. -/
def classify (url : Str) : CrawlType :=
  if is_sitemap url then .sitemap else if is_txt url then .txtFile else .webpage

/-! ## Frontier Crawler (`crawl_recursive_internal_links`, lines 1781-1819)

The fetch capability (`crawler.arun_many`) is modelled as an oracle from a
URL to its fetch result; `arun_many(urls)` returns one result per requested
URL, carrying that URL (`result.url`).  Python `set`s (`visited`,
`current_urls`, `next_level_urls`) are modelled as duplicate-free lists in
insertion order; the proved properties do not depend on iteration order. -/

/-- One fetch outcome: `result.success`, `result.markdown`,
`result.links["internal"]` hrefs. -/
structure FetchResult where
  success : Bool
  markdown : Str
  internalLinks : List Str
deriving DecidableEq

/-- An entry of the crawler's accumulated result list:
`{'url': ..., 'markdown': ...}`. -/
structure PageResult where
  url : Str
  markdown : Str
deriving DecidableEq

/-- `set.add`: append the element unless already present. -/
def setAdd (s : List Str) (x : Str) : List Str := if x ∈ s then s else s ++ [x]

/-- `set(xs)`: deduplicate, keeping first occurrences. -/
def setOfList (xs : List Str) : List Str := xs.foldl setAdd []

/-- Mutable state of one BFS level pass: `visited`, `results_all`,
`next_level_urls`. -/
structure CrawlState where
  visited : List Str
  results : List PageResult
  nextLevel : List Str
deriving DecidableEq

/-- Processing of one fetch result inside the `for result in results:` loop
(rest_api.py lines 1805-1815): mark the normalized URL visited; on success
with non-empty markdown, append the page and add each not-yet-visited
normalized internal link to the next frontier. -/
def processResult (s : CrawlState) (url : Str) (fr : FetchResult) : CrawlState :=
  let n := normalize_url url
  let visited1 := setAdd s.visited n
  if fr.success && !fr.markdown.isEmpty then
    { visited := visited1
      results := s.results ++ [⟨url, fr.markdown⟩]
      nextLevel := fr.internalLinks.foldl
        (fun acc l =>
          let nu := normalize_url l
          if nu ∈ visited1 then acc else setAdd acc nu)
        s.nextLevel }
  else { s with visited := visited1 }

/-- One BFS level: dispatch `urls` and fold their results into the state. -/
def processLevel (oracle : Str → FetchResult) (urls : List Str)
    (v : List Str) (rs : List PageResult) : CrawlState :=
  urls.foldl (fun s u => processResult s u (oracle u)) ⟨v, rs, []⟩

/-- The `for depth in range(max_depth):` loop (rest_api.py lines 1799-1817).
Besides the final visited set and result list it returns the trace of
dispatched URL batches (the successive values of `urls_to_crawl`). -/
def crawlLoop (oracle : Str → FetchResult) :
    Nat → List Str → List Str → List PageResult → List (List Str) →
    List Str × List PageResult × List (List Str)
  | 0, _, v, rs, tr => (v, rs, tr)
  | d + 1, frontier, v, rs, tr =>
    let us := (frontier.filter (fun u => decide (normalize_url u ∉ v))).map normalize_url
    if us = [] then (v, rs, tr)
    else
      let s := processLevel oracle us v rs
      crawlLoop oracle d s.nextLevel s.visited s.results (tr ++ [us])

/-- `crawl_recursive_internal_links(crawler, start_urls, max_depth, ...)`
(rest_api.py lines 1781-1819): returns `results_all`. -/
def crawl_recursive_internal_links (oracle : Str → FetchResult)
    (start_urls : List Str) (max_depth : Nat) : List PageResult :=
  (crawlLoop oracle max_depth (setOfList (start_urls.map normalize_url)) [] [] []).2.1

/-! ## Sitemap Resolver (`parse_sitemap`, rest_api.py lines 328-340)

`requests.get` is modelled as an oracle that either raises (`Except.error`,
e.g. a network error) or returns a response with a status code and a parse
outcome for its body: `none` models `ElementTree.fromstring` raising
(unparsable XML), `some ts` the list of `<loc>` element texts.  In the
source, the `requests.get` call sits *outside* the `try` block; only XML
parsing is guarded. -/

/-- A `requests` response, body abstracted to its XML parse outcome. -/
structure SitemapResp where
  status : Nat
  locTexts : Option (List Str)
deriving DecidableEq

/-- `parse_sitemap(sitemap_url)` (rest_api.py lines 328-340). -/
def parse_sitemap (fetch : Str → Except Str SitemapResp) (url : Str) :
    Except Str (List Str) :=
  match fetch url with
  | .error e => .error e
  | .ok resp =>
    if resp.status == 200 then
      match resp.locTexts with
      | some urls => .ok urls
      | none => .ok []
    else .ok []

/-! ## Ingestion storage loop (`smart_crawl_url`, rest_api.py lines 1595-1640) -/

/-- Modelled from the spec: `add_documents_to_supabase` is imported from
`utils`, a module not present in src/.  Spec §7 ("Store write failure for
one URL: does not abort ingestion of sibling URLs already queued") and the
propagation policy ("all per-page and per-URL failures are absorbed locally")
require the write path to absorb per-URL failures rather than raise.  The
store is an oracle saying whether the write for a URL succeeds; the call is
total (never an exception) and reports whether the write took effect. -/
def add_documents_to_supabase (store : Str → Bool) (url : Str) : Bool := store url

/-- Aggregate outcome of `smart_crawl_url`'s processing loop: the `success`
flag, `pages_crawled`, `chunks_stored`, and (for specification purposes) the
URLs whose store write actually took effect. -/
structure IngestOutcome where
  success : Bool
  pagesCrawled : Nat
  chunksStored : Nat
  storedUrls : List Str
deriving DecidableEq

/-- The `for page_result in all_results:` processing-and-storage loop of
`smart_crawl_url` (rest_api.py lines 1597-1640): pages with empty markdown
are skipped; otherwise the page is chunked, handed to the store, and
`total_chunks` is increased by the page's chunk count. -/
def processAndStore (store : Str → Bool) (chunkSize : Nat)
    (allResults : List PageResult) : IngestOutcome :=
  let p := allResults.foldl
    (fun (acc : Nat × List Str) r =>
      if !r.markdown.isEmpty then
        let chunks := smart_chunk_markdown r.markdown chunkSize
        let ok := add_documents_to_supabase store r.url
        (acc.1 + chunks.length, acc.2 ++ if ok then [r.url] else [])
      else acc)
    (0, [])
  ⟨true, allResults.length, p.1, p.2⟩

/-! ## Specification-side definitions

These follow the words of the claims (not the source); they exist to be
compared against the source translations above. -/

/-- Sentence rule as claim C1 words it: use the last sentence break (placed
just after the period) if past the 30% threshold, else the full window. -/
def claimSent (cs start : Nat) (w : Str) : Nat :=
  match rfindSub sentMark w with
  | some lp => if past30 cs lp then start + lp + 1 else start + cs
  | none => start + cs

/-- Paragraph rule as claim C1 words it: use the last paragraph break if
past the 30% threshold, *else try the sentence rule*. -/
def claimPara (cs start : Nat) (w : Str) : Nat :=
  match rfindSub paraMark w with
  | some lb => if past30 cs lb then start + lb else claimSent cs start w
  | none => claimSent cs start w

/-- Break-point selection as claim C1 words it: fence if past 30%, else
paragraph if past 30%, else sentence if past 30%, else the full window. -/
def chooseEndClaim (cs start : Nat) (w : Str) : Nat :=
  match rfindSub fenceMark w with
  | some cb => if past30 cs cb then start + cb else claimPara cs start w
  | none => claimPara cs start w

/-- Index of the last occurrence of `pat` (0 when absent; only read under a
`containsSub` guard). -/
def lastIdx (pat w : Str) : Nat := (rfindSub pat w).getD 0

/-- Break-point selection as amended: the fence rule falls through to the
paragraph rule when the last fence is at or below the 30% threshold, but if
a paragraph break exists at all, the sentence rule is *not* tried — a
below-threshold paragraph break yields the full window; likewise a
below-threshold sentence break (with no paragraph break present) yields the
full window. -/
def chooseEndAmended (cs start : Nat) (w : Str) : Nat :=
  if containsSub fenceMark w && past30 cs (lastIdx fenceMark w) then
    start + lastIdx fenceMark w
  else if containsSub paraMark w then
    if past30 cs (lastIdx paraMark w) then start + lastIdx paraMark w else start + cs
  else if containsSub sentMark w then
    if past30 cs (lastIdx sentMark w) then start + lastIdx sentMark w + 1 else start + cs
  else start + cs

/-- URL classification as claim C7 words it: `Sitemap` iff the *path* ends
in `sitemap.xml` or the path contains `sitemap`. -/
def classifyClaim (url : Str) : CrawlType :=
  if endsWith (urlparse url).path "sitemap.xml".data ||
      containsSub "sitemap".data (urlparse url).path then .sitemap
  else if endsWith url ".txt".data then .txtFile
  else .webpage

/-- The fetch-success test `result.success and result.markdown`. -/
def fetchOk (oracle : Str → FetchResult) (u : Str) : Bool :=
  (oracle u).success && !(oracle u).markdown.isEmpty

/-- The page record appended for a successfully fetched URL. -/
def fetchPage (oracle : Str → FetchResult) (u : Str) : PageResult :=
  ⟨u, (oracle u).markdown⟩

/-- A fetch oracle for witnesses: every URL succeeds with markdown `m` and
no internal links. -/
def oracleA : Str → FetchResult := fun _ => ⟨true, "m".data, []⟩

/-- A fetch oracle whose `requests.get` raises a connection error. -/
def fetchConnError : Str → Except Str SitemapResp :=
  fun _ => Except.error "ConnectionError".data

/-- A fetch oracle returning HTTP 404 with a parsable body. -/
def fetch404 : Str → Except Str SitemapResp :=
  fun _ => Except.ok ⟨404, some ["u".data]⟩

/-- A store oracle whose write fails for `a` but succeeds for `b`. -/
def storeB : Str → Bool := fun u => decide (u = "b".data)

/-- A string containing no `#` character. -/
def hashFree (s : Str) : Prop := ∀ c ∈ s, ¬(c = '#')

/-! ## Model validation

Concrete evaluations of the embedding, cross-checked by hand against the
Python functions (and CPython's `urllib.parse` for the URL helpers). -/

example : smart_chunk_markdown "hello world".data 20 = ["hello world".data] := by decide
example : smart_chunk_markdown "   ".data 5 = [[]] := by decide
example : smart_chunk_markdown [] 5 = [] := by decide
example : smart_chunk_markdown "\n\nab. cdefXYZ".data 10 =
    ["ab. cdef".data, "XYZ".data] := by decide

example : (urlparse "http://example.com/page?q=sitemap.xml".data).path = "/page".data := by
  decide
example : is_sitemap "http://example.com/page?q=sitemap.xml".data = true := by decide
example : normalize_url "http://a.com/x#frag".data = "http://a.com/x".data := by decide
example : normalize_url "http://a.com/x".data = "http://a.com/x".data := by decide
example : urlparse "http://x/a;p".data =
    ⟨"http".data, "x".data, "/a".data, "p".data, [], []⟩ := by decide

example : urldefrag "a?#f".data = "a".data := by decide
example : urldefrag "HTTP://A.com/x#y".data = "http://A.com/x".data := by decide
example : urlparse "http://x.com/a/b;c;d?q#f".data =
    ⟨"http".data, "x.com".data, "/a/b".data, "c;d".data, "q".data, "f".data⟩ := by decide
example : urldefrag "//n/p#z".data = "//n/p".data := by decide
example : urldefrag "sch+x:p#z".data = "sch+x:p".data := by decide
example : urldefrag "1ab:p#z".data = "1ab:p".data := by decide

/-! ## Chunker lemmas -/

/-- A successful `rfind` of a non-empty pattern is a position inside `s`. -/
lemma rfindSub_lt_length {pat s : Str} {i : Nat} (hp : pat ≠ [])
    (h : rfindSub pat s = some i) : i < s.length := by
  have hxl : i ∈ ((List.range (s.length + 1)).filter (occursAt pat s)).getLast? := h
  obtain ⟨hne, heq⟩ := List.mem_getLast?_eq_getLast hxl
  have hmem : i ∈ (List.range (s.length + 1)).filter (occursAt pat s) := by
    rw [heq]; exact List.getLast_mem hne
  have hocc := (List.mem_filter.mp hmem).2
  unfold occursAt at hocc
  cases hpat : pat with
  | nil => exact absurd hpat hp
  | cons a ps =>
    rw [hpat] at hocc
    by_contra hle
    push_neg at hle
    rw [List.drop_eq_nil_of_le hle] at hocc
    simp [listMatch] at hocc

/-- When `chunk_size ≥ 1`, every selected break point is strictly past
`start`: the loop always advances. -/
lemma chooseEnd_gt (cs start : Nat) (w : Str) (hcs : 1 ≤ cs) :
    start < chooseEnd cs start w := by
  have hpara : start < chooseEndPara cs start (start + cs) w := by
    unfold chooseEndPara
    split
    · split
      · rename_i hp
        simp only [past30, decide_eq_true_eq] at hp
        omega
      · omega
    · split
      · split
        · rename_i hp
          simp only [past30, decide_eq_true_eq] at hp
          omega
        · omega
      · omega
  unfold chooseEnd
  split
  · split
    · rename_i hp
      simp only [past30, decide_eq_true_eq] at hp
      omega
    · exact hpara
  · exact hpara

/-- Every selected break point is at most `start + chunk_size` when the
window has at most `chunk_size` characters. -/
lemma chooseEnd_le (cs start : Nat) (w : Str) (hw : w.length ≤ cs) :
    chooseEnd cs start w ≤ start + cs := by
  have hpara : chooseEndPara cs start (start + cs) w ≤ start + cs := by
    unfold chooseEndPara
    split
    · next lb hlb =>
      have := rfindSub_lt_length (by simp [paraMark]) hlb
      split
      · omega
      · omega
    · split
      · next lp hlp =>
        have := rfindSub_lt_length (by simp [sentMark]) hlp
        split
        · omega
        · omega
      · omega
  unfold chooseEnd
  split
  · next cb hcb =>
    have := rfindSub_lt_length (by simp [fenceMark]) hcb
    split
    · omega
    · exact hpara
  · exact hpara

/-- With `chunk_size ≥ 1`, fuel exceeding the remaining text length is
enough for the chunking loop to finish. -/
lemma chunkLoop_isSome {cs : Nat} (hcs : 1 ≤ cs) (text : Str) :
    ∀ fuel start acc, text.length - start < fuel →
      (chunkLoop cs text fuel start acc).isSome = true := by
  intro fuel
  induction fuel with
  | zero => intro start acc h; omega
  | succ f ih =>
    intro start acc h
    rw [chunkLoop]
    by_cases h1 : start < text.length
    · simp only [h1, if_true]
      by_cases h2 : text.length ≤ start + cs
      · simp [h2]
      · simp only [h2, if_false]
        apply ih
        have hadv := chooseEnd_gt cs start (sliceStr text start (start + cs)) hcs
        omega
    · simp [h1]

/-- A string whose `strip` is empty consists of whitespace only. -/
lemma all_space_of_strip_eq_nil {s : Str} (h : strip s = []) :
    ∀ c ∈ s, isSpaceChar c = true := by
  unfold strip stripLeadingWs at h
  rw [List.reverse_eq_nil_iff, List.dropWhile_eq_nil_iff] at h
  have hdrop : ∀ c ∈ s.dropWhile isSpaceChar, isSpaceChar c = true := by
    intro c hc
    exact h c (List.mem_reverse.mpr hc)
  intro c hc
  rw [← List.takeWhile_append_dropWhile isSpaceChar s] at hc
  rcases List.mem_append.mp hc with h1 | h2
  · exact List.mem_takeWhile_imp h1
  · exact hdrop c h2

/-- Dropping leading whitespace ignores an all-whitespace stretch in front. -/
lemma dropWhile_append_of_all {s t : Str} (h : ∀ c ∈ s, isSpaceChar c = true) :
    (s ++ t).dropWhile isSpaceChar = t.dropWhile isSpaceChar := by
  induction s with
  | nil => rfl
  | cons a s ih =>
    have ha : isSpaceChar a = true := h a (List.mem_cons_self a s)
    rw [List.cons_append, List.dropWhile_cons, ha, if_pos rfl]
    exact ih (fun c hc => h c (List.mem_cons_of_mem a hc))

/-- `strip` absorbs an all-whitespace stretch in front. -/
lemma strip_append_of_strip_nil {s t : Str} (h : strip s = []) :
    strip (s ++ t) = strip t := by
  unfold strip stripLeadingWs
  rw [dropWhile_append_of_all (all_space_of_strip_eq_nil h)]

/-- With `chunk_size ≥ 1` and enough fuel, the chunking loop returns the
trimmed images of a partition of the remaining text into contiguous spans:
chunks dropped as whitespace-only are absorbed into the following span. -/
lemma chunkLoop_spans {cs : Nat} (hcs : 1 ≤ cs) (text : Str) :
    ∀ fuel start acc, start ≤ text.length → text.length - start < fuel →
      ∃ spans : List Str, spans.flatten = text.drop start ∧
        chunkLoop cs text fuel start acc = some (acc ++ spans.map strip) := by
  intro fuel
  induction fuel with
  | zero => intro start acc _ h; omega
  | succ f ih =>
    intro start acc hstart h
    rw [chunkLoop]
    by_cases h1 : start < text.length
    · simp only [h1, if_true]
      by_cases h2 : text.length ≤ start + cs
      · refine ⟨[text.drop start], by simp, by simp [h2]⟩
      · simp only [h2, if_false]
        push_neg at h2
        have hwlen : (sliceStr text start (start + cs)).length ≤ cs := by
          unfold sliceStr
          rw [List.length_take]
          omega
        have hgt := chooseEnd_gt cs start (sliceStr text start (start + cs)) hcs
        have hle := chooseEnd_le cs start (sliceStr text start (start + cs)) hwlen
        set e := chooseEnd cs start (sliceStr text start (start + cs)) with he
        have helt : e < text.length := by omega
        have hsplit : sliceStr text start e ++ text.drop e = text.drop start := by
          unfold sliceStr
          have : text.drop e = (text.drop start).drop (e - start) := by
            rw [List.drop_drop]
            congr 1
            omega
          rw [this]
          exact List.take_append_drop (e - start) (text.drop start)
        obtain ⟨spans, hspans, hloop⟩ :=
          ih e (if strip (sliceStr text start e) = [] then acc
                else acc ++ [strip (sliceStr text start e)]) (by omega) (by omega)
        by_cases hc : strip (sliceStr text start e) = []
        · have hne : spans ≠ [] := by
            intro hnil
            rw [hnil] at hspans
            have : text.drop e = [] := hspans.symm
            rw [List.drop_eq_nil_iff] at this
            omega
          obtain ⟨h0, t0, rfl⟩ := List.exists_cons_of_ne_nil hne
          refine ⟨(sliceStr text start e ++ h0) :: t0, ?_, ?_⟩
          · rw [List.flatten_cons, List.append_assoc, ← List.flatten_cons, hspans, hsplit]
          · rw [if_pos hc] at hloop
            rw [if_pos hc, hloop]
            simp only [List.map_cons, strip_append_of_strip_nil hc]
        · refine ⟨sliceStr text start e :: spans, ?_, ?_⟩
          · rw [List.flatten_cons, hspans, hsplit]
          · rw [if_neg hc] at hloop
            rw [if_neg hc, hloop]
            simp [List.map_cons]
    · simp only [h1, if_false]
      have : start = text.length := by omega
      refine ⟨[], by simp [this, List.drop_eq_nil_iff], by simp⟩

/-- All chunks the loop ever emits, except possibly the final remainder, are
non-empty: the mid-loop `if chunk:` filter drops empty ones. -/
lemma chunkLoop_dropLast {cs : Nat} (text : Str) :
    ∀ fuel start acc l, (∀ c ∈ acc, c ≠ []) →
      chunkLoop cs text fuel start acc = some l →
      ∀ c ∈ l.dropLast, c ≠ [] := by
  intro fuel
  induction fuel with
  | zero => intro start acc l _ h; exact absurd h (by simp [chunkLoop])
  | succ f ih =>
    intro start acc l hacc h
    rw [chunkLoop] at h
    by_cases h1 : start < text.length
    · simp only [h1, if_true] at h
      by_cases h2 : text.length ≤ start + cs
      · simp only [h2, if_true] at h
        have hl : l = acc ++ [strip (text.drop start)] := by
          injection h with h
          exact h.symm
        rw [hl, List.dropLast_concat]
        exact hacc
      · simp only [h2, if_false] at h
        refine ih _ _ l ?_ h
        by_cases hc : strip (sliceStr text start (chooseEnd cs start (sliceStr text start (start + cs)))) = []
        · simpa only [if_pos hc] using hacc
        · rw [if_neg hc]
          intro c hcmem
          rcases List.mem_append.mp hcmem with hm | hm
          · exact hacc c hm
          · rw [List.mem_singleton.mp hm]
            exact hc
    · simp only [h1, if_false] at h
      have hl : l = acc := by injection h with h; exact h.symm
      rw [hl]
      intro c hcmem
      exact hacc c ((List.dropLast_sublist acc).mem hcmem)

/-- With `chunk_size = 0` and non-empty text the loop never advances: it
exhausts any amount of fuel (the Python loop never terminates). -/
lemma chunkLoop_zero {text : Str} (h : text ≠ []) :
    ∀ fuel acc, chunkLoop 0 text fuel 0 acc = none := by
  have hlen : 0 < text.length := List.length_pos.mpr h
  intro fuel
  induction fuel with
  | zero => intro acc; rfl
  | succ f ih =>
    intro acc
    rw [chunkLoop]
    have h2 : ¬ text.length ≤ 0 + 0 := by omega
    simp only [hlen, if_true, h2, if_false]
    have hw : sliceStr text 0 (0 + 0) = [] := by simp [sliceStr]
    rw [hw]
    have hce : chooseEnd 0 0 [] = 0 := by decide
    rw [hce]
    have hc : strip (sliceStr text 0 0) = [] := by simp [sliceStr, strip, stripLeadingWs]
    rw [if_pos hc]
    exact ih acc

/-! ## URL lemmas: fragment stripping is idempotent -/

lemma toNat_ofNat_valid {n : Nat} (h1 : 97 ≤ n) (h2 : n ≤ 122) :
    (Char.ofNat n).toNat = n := by
  have hv : n.isValidChar := Or.inl (by omega)
  unfold Char.ofNat
  rw [dif_pos hv]
  simp [Char.ofNatAux, Char.toNat, UInt32.toNat]

/-- Lower-casing a scheme character never yields `#`. -/
lemma schemeChar_toLower_ne_hash {c : Char} (h : schemeChar c = true) :
    ¬(Char.toLower c = '#') := by
  intro heq
  unfold Char.toLower at heq
  by_cases hn : c.toNat ≥ 65 ∧ c.toNat ≤ 90
  · rw [if_pos hn] at heq
    have := congrArg Char.toNat heq
    rw [toNat_ofNat_valid (by omega) (by omega)] at this
    have h35 : ('#').toNat = 35 := by decide
    omega
  · rw [if_neg hn] at heq
    rw [heq] at h
    exact absurd h (by decide)

lemma splitScheme_fst_hashFree (u : Str) : hashFree (splitScheme u).1 := by
  unfold splitScheme
  split
  · split
    · next hcond =>
      intro c hc heq
      obtain ⟨c', hc', hmap⟩ := List.mem_map.mp hc
      have hall := (Bool.and_eq_true _ _ |>.mp hcond).2
      rw [List.all_eq_true] at hall
      exact schemeChar_toLower_ne_hash (hall c' hc') (hmap.trans (by rw [heq]))
    · intro c hc; exact absurd hc (List.not_mem_nil c)
  · intro c hc; exact absurd hc (List.not_mem_nil c)

lemma splitNetloc_fst_hashFree (r : Str) : hashFree (splitNetloc r).1 := by
  unfold splitNetloc
  split
  · intro c hc heq
    have := List.mem_takeWhile_imp hc
    rw [heq] at this
    exact absurd this (by decide)
  · intro c hc; exact absurd hc (List.not_mem_nil c)

lemma splitAtChar_fst_mem {ch : Char} {s : Str} {c : Char}
    (h : c ∈ (splitAtChar ch s).1) : c ∈ s := by
  unfold splitAtChar at h
  split at h
  · exact (List.takeWhile_sublist _).mem h
  · exact h

lemma splitAtChar_snd_mem {ch : Char} {s : Str} {c : Char}
    (h : c ∈ (splitAtChar ch s).2) : c ∈ s := by
  unfold splitAtChar at h
  split at h
  · exact (List.dropWhile_sublist _).mem (List.drop_subset 1 _ h)
  · exact absurd h (List.not_mem_nil c)

/-- The part before the fragment split never contains `#`. -/
lemma splitAtChar_hash_fst (s : Str) : hashFree (splitAtChar '#' s).1 := by
  unfold splitAtChar
  split
  · intro c hc heq
    have := List.mem_takeWhile_imp hc
    rw [heq] at this
    simp at this
  · next hany =>
    intro c hc heq
    exact hany (List.any_eq_true.mpr ⟨c, hc, by rw [heq]; rfl⟩)

lemma splitparams_fst_mem {p : Str} {c : Char} (h : c ∈ (splitparams p).1) : c ∈ p := by
  unfold splitparams at h
  dsimp only at h
  split at h
  · split at h
    · exact List.take_subset _ _ h
    · exact h
  · split at h
    · exact List.take_subset _ _ h
    · exact h

lemma splitparams_snd_mem {p : Str} {c : Char} (h : c ∈ (splitparams p).2) : c ∈ p := by
  unfold splitparams at h
  dsimp only at h
  split at h
  · split at h
    · exact List.drop_subset _ _ h
    · exact absurd h (List.not_mem_nil c)
  · split at h
    · exact List.drop_subset _ _ h
    · exact absurd h (List.not_mem_nil c)

/-- No component of `urlparse` except the fragment contains `#`. -/
lemma urlparse_hashFree (u : Str) :
    hashFree (urlparse u).scheme ∧ hashFree (urlparse u).netloc ∧
    hashFree (urlparse u).path ∧ hashFree (urlparse u).params ∧
    hashFree (urlparse u).query := by
  have hscheme : hashFree (urlsplit u).1 := splitScheme_fst_hashFree _
  have hnetloc : hashFree (urlsplit u).2.1 := splitNetloc_fst_hashFree _
  have hrest3 : hashFree (splitAtChar '#' (splitNetloc (splitScheme (preUrl u)).2).2).1 :=
    splitAtChar_hash_fst _
  have hpath0 : hashFree (urlsplit u).2.2.1 := fun c hc => hrest3 c (splitAtChar_fst_mem hc)
  have hquery : hashFree (urlsplit u).2.2.2.1 := fun c hc => hrest3 c (splitAtChar_snd_mem hc)
  unfold urlparse
  dsimp only
  split
  · exact ⟨hscheme, hnetloc,
      fun c hc => hpath0 c (splitparams_fst_mem hc),
      fun c hc => hpath0 c (splitparams_snd_mem hc), hquery⟩
  · exact ⟨hscheme, hnetloc, hpath0, fun c hc => absurd hc (List.not_mem_nil c), hquery⟩

lemma hashFree_nil : hashFree [] := fun c hc => absurd hc (List.not_mem_nil c)

lemma hashFree_cons {c0 : Char} {a : Str} (h : ¬(c0 = '#')) (ha : hashFree a) :
    hashFree (c0 :: a) := by
  intro c hc
  rcases List.mem_cons.mp hc with h1 | h1
  · rw [h1]; exact h
  · exact ha c h1

lemma hashFree_append {a b : Str} (ha : hashFree a) (hb : hashFree b) :
    hashFree (a ++ b) := by
  intro c hc
  rcases List.mem_append.mp hc with h1 | h1
  · exact ha c h1
  · exact hb c h1

/-- Reassembling hash-free components with an empty fragment yields a
hash-free URL. -/
lemma urlunsplit_hashFree {s n u q : Str} (hs : hashFree s) (hn : hashFree n)
    (hu : hashFree u) (hq : hashFree q) : hashFree (urlunsplit s n u q []) := by
  unfold urlunsplit
  have hin : hashFree (if u ≠ [] && ((u.headD '/') != '/') then '/' :: u else u) := by
    split
    · exact hashFree_cons (by decide) hu
    · exact hu
  have h1 : hashFree (if n ≠ [] || decide (u.take 2 = ['/', '/']) then
      ['/', '/'] ++ n ++ (if u ≠ [] && ((u.headD '/') != '/') then '/' :: u else u) else u) := by
    split
    · exact hashFree_append
        (hashFree_append (hashFree_cons (by decide) (hashFree_cons (by decide) hashFree_nil)) hn)
        hin
    · exact hu
  have h2 : hashFree (if s ≠ [] then
      s ++ ':' :: (if n ≠ [] || decide (u.take 2 = ['/', '/']) then
        ['/', '/'] ++ n ++ (if u ≠ [] && ((u.headD '/') != '/') then '/' :: u else u) else u)
      else (if n ≠ [] || decide (u.take 2 = ['/', '/']) then
        ['/', '/'] ++ n ++ (if u ≠ [] && ((u.headD '/') != '/') then '/' :: u else u) else u)) := by
    split
    · exact hashFree_append hs (hashFree_cons (by decide) h1)
    · exact h1
  rw [if_neg (show ¬(([] : Str) ≠ []) by simp)]
  split
  · exact hashFree_append h2 (hashFree_cons (by decide) hq)
  · exact h2

lemma urlunparse_hashFree {s n p pa q : Str} (hs : hashFree s) (hn : hashFree n)
    (hp : hashFree p) (hpa : hashFree pa) (hq : hashFree q) :
    hashFree (urlunparse s n p pa q []) := by
  unfold urlunparse
  apply urlunsplit_hashFree hs hn _ hq
  split
  · exact hashFree_append hp (hashFree_cons (by decide) hpa)
  · exact hp

/-- The defragmented URL never contains `#`. -/
lemma urldefrag_hashFree (u : Str) : hashFree (urldefrag u) := by
  unfold urldefrag
  split
  · obtain ⟨h1, h2, h3, h4, h5⟩ := urlparse_hashFree u
    exact urlunparse_hashFree h1 h2 h3 h4 h5
  · next hany =>
    intro c hc heq
    exact hany (List.any_eq_true.mpr ⟨c, hc, by rw [heq]; rfl⟩)

/-- A URL without `#` is returned unchanged by `urldefrag`. -/
lemma urldefrag_of_hashFree {v : Str} (hv : hashFree v) : urldefrag v = v := by
  unfold urldefrag
  rw [if_neg]
  intro hany
  obtain ⟨c, hc, heq⟩ := List.any_eq_true.mp hany
  exact hv c hc (by simpa using heq)

/-- Fragment stripping is idempotent (shared helper). -/
lemma normalize_url_idem (u : Str) : normalize_url (normalize_url u) = normalize_url u := by
  unfold normalize_url
  exact urldefrag_of_hashFree (urldefrag_hashFree u)

/-! ## Frontier Crawler lemmas -/

lemma mem_setAdd {s : List Str} {x y : Str} : y ∈ setAdd s x ↔ y ∈ s ∨ y = x := by
  unfold setAdd
  split
  · next hx =>
    constructor
    · exact Or.inl
    · rintro (h | rfl)
      · exact h
      · exact hx
  · simp

lemma setAdd_nodup {s : List Str} {x : Str} (h : s.Nodup) : (setAdd s x).Nodup := by
  unfold setAdd
  split
  · exact h
  · next hx =>
    rw [List.nodup_append]
    exact ⟨h, List.nodup_singleton x, fun a ha hax => hx (by rwa [List.mem_singleton.mp hax] at ha)⟩

lemma setOfList_nodup (l : List Str) : (setOfList l).Nodup := by
  unfold setOfList
  suffices h : ∀ acc : List Str, acc.Nodup → (l.foldl setAdd acc).Nodup from h [] List.nodup_nil
  induction l with
  | nil => intro acc h; exact h
  | cons a l ih => intro acc h; exact ih (setAdd acc a) (setAdd_nodup h)

lemma mem_setOfList {l : List Str} {x : Str} (h : x ∈ setOfList l) : x ∈ l := by
  unfold setOfList at h
  suffices hgen : ∀ acc : List Str, x ∈ l.foldl setAdd acc → x ∈ acc ∨ x ∈ l from
    (hgen [] h).resolve_left (List.not_mem_nil x)
  clear h
  induction l with
  | nil => intro acc h; exact Or.inl h
  | cons a l ih =>
    intro acc h
    rcases ih (setAdd acc a) h with h1 | h1
    · rcases mem_setAdd.mp h1 with h2 | h2
      · exact Or.inl h2
      · exact Or.inr (h2 ▸ List.mem_cons_self a l)
    · exact Or.inr (List.mem_cons_of_mem a h1)

lemma setOfList_normalized (seeds : List Str) :
    ∀ x ∈ setOfList (seeds.map normalize_url), normalize_url x = x := by
  intro x hx
  obtain ⟨s0, _, rfl⟩ := List.mem_map.mp (mem_setOfList hx)
  exact normalize_url_idem s0

lemma linkFold_nodup (vv : List Str) (links : List Str) :
    ∀ acc : List Str, acc.Nodup →
      (links.foldl (fun acc l =>
        if normalize_url l ∈ vv then acc else setAdd acc (normalize_url l)) acc).Nodup := by
  induction links with
  | nil => intro acc h; exact h
  | cons a links ih =>
    intro acc h
    refine ih _ ?_
    dsimp only
    split
    · exact h
    · exact setAdd_nodup h

lemma linkFold_normalized (vv : List Str) (links : List Str) :
    ∀ acc : List Str, (∀ x ∈ acc, normalize_url x = x) →
      ∀ x ∈ (links.foldl (fun acc l =>
        if normalize_url l ∈ vv then acc else setAdd acc (normalize_url l)) acc),
        normalize_url x = x := by
  induction links with
  | nil => intro acc h; exact h
  | cons a links ih =>
    intro acc h
    refine ih _ ?_
    dsimp only
    split
    · exact h
    · intro x hx
      rcases mem_setAdd.mp hx with h1 | h1
      · exact h x h1
      · rw [h1]; exact normalize_url_idem a

lemma processResult_visited {s : CrawlState} {u : Str} {fr : FetchResult}
    (hn : normalize_url u = u) (hv : u ∉ s.visited) :
    (processResult s u fr).visited = s.visited ++ [u] := by
  unfold processResult
  dsimp only
  rw [hn]
  split
  · dsimp only; unfold setAdd; rw [if_neg hv]
  · dsimp only; unfold setAdd; rw [if_neg hv]

lemma processResult_results {s : CrawlState} {u : Str} {fr : FetchResult} :
    (processResult s u fr).results =
      s.results ++ (if fr.success && !fr.markdown.isEmpty then [⟨u, fr.markdown⟩] else []) := by
  unfold processResult
  dsimp only
  split
  · rfl
  · simp

lemma processResult_nextLevel_nodup {s : CrawlState} {u : Str} {fr : FetchResult}
    (h : s.nextLevel.Nodup) : (processResult s u fr).nextLevel.Nodup := by
  unfold processResult
  dsimp only
  split
  · exact linkFold_nodup _ _ _ h
  · exact h

lemma processResult_nextLevel_normalized {s : CrawlState} {u : Str} {fr : FetchResult}
    (h : ∀ x ∈ s.nextLevel, normalize_url x = x) :
    ∀ x ∈ (processResult s u fr).nextLevel, normalize_url x = x := by
  unfold processResult
  dsimp only
  split
  · exact linkFold_normalized _ _ _ h
  · exact h

/-- Characterisation of one BFS level: dispatching a duplicate-free list of
normalized, unvisited URLs appends exactly those URLs to the visited set and
exactly the successfully fetched pages (in dispatch order) to the results;
the produced next frontier is duplicate-free and normalized. -/
lemma processFold_spec (oracle : Str → FetchResult) :
    ∀ (us : List Str) (s0 : CrawlState),
      us.Nodup → (∀ u ∈ us, u ∉ s0.visited) → (∀ u ∈ us, normalize_url u = u) →
      s0.nextLevel.Nodup → (∀ x ∈ s0.nextLevel, normalize_url x = x) →
      (us.foldl (fun s u => processResult s u (oracle u)) s0).visited = s0.visited ++ us ∧
      (us.foldl (fun s u => processResult s u (oracle u)) s0).results =
        s0.results ++ (us.filter (fetchOk oracle)).map (fetchPage oracle) ∧
      (us.foldl (fun s u => processResult s u (oracle u)) s0).nextLevel.Nodup ∧
      (∀ x ∈ (us.foldl (fun s u => processResult s u (oracle u)) s0).nextLevel,
        normalize_url x = x) := by
  intro us
  induction us with
  | nil => intro s0 _ _ _ h4 h5; exact ⟨by simp, by simp, h4, h5⟩
  | cons u us ih =>
    intro s0 h1 h2 h3 h4 h5
    have hn : normalize_url u = u := h3 u (List.mem_cons_self u us)
    have hv : u ∉ s0.visited := h2 u (List.mem_cons_self u us)
    have hvis1 : (processResult s0 u (oracle u)).visited = s0.visited ++ [u] :=
      processResult_visited hn hv
    have hres1 : (processResult s0 u (oracle u)).results =
        s0.results ++ (if fetchOk oracle u then [fetchPage oracle u] else []) :=
      processResult_results
    obtain ⟨ihv, ihr, ihn, ihnorm⟩ := ih (processResult s0 u (oracle u))
      (List.nodup_cons.mp h1).2
      (by
        intro u' hu'
        rw [hvis1, List.mem_append]
        rintro (hmem | hmem)
        · exact h2 u' (List.mem_cons_of_mem u hu') hmem
        · exact (List.nodup_cons.mp h1).1 (List.mem_singleton.mp hmem ▸ hu'))
      (fun u' hu' => h3 u' (List.mem_cons_of_mem u hu'))
      (processResult_nextLevel_nodup h4)
      (processResult_nextLevel_normalized h5)
    refine ⟨?_, ?_, ihn, ihnorm⟩
    · rw [List.foldl_cons, ihv, hvis1, List.append_assoc, List.singleton_append]
    · rw [List.foldl_cons, ihr, hres1, List.append_assoc]
      congr 1
      rw [List.filter_cons]
      by_cases hok : fetchOk oracle u
      · rw [if_pos hok, if_pos hok, List.map_cons, List.singleton_append]
      · rw [if_neg hok, if_neg hok, List.nil_append]

/-- The BFS loop invariant: the visited set stays duplicate-free, the
normalized URLs of the accumulated results stay duplicate-free, the trace of
dispatched batches is globally duplicate-free, and every dispatched URL is
in the final visited set. -/
lemma crawlLoop_inv (oracle : Str → FetchResult) :
    ∀ (d : Nat) (frontier v : List Str) (rs : List PageResult) (tr : List (List Str)),
      v.Nodup →
      (∀ r ∈ rs, normalize_url r.url ∈ v) →
      (rs.map (fun r => normalize_url r.url)).Nodup →
      frontier.Nodup → (∀ x ∈ frontier, normalize_url x = x) →
      tr.flatten.Nodup → (∀ x ∈ tr.flatten, x ∈ v) →
      (crawlLoop oracle d frontier v rs tr).1.Nodup ∧
      ((crawlLoop oracle d frontier v rs tr).2.1.map (fun r => normalize_url r.url)).Nodup ∧
      (crawlLoop oracle d frontier v rs tr).2.2.flatten.Nodup ∧
      (∀ x ∈ (crawlLoop oracle d frontier v rs tr).2.2.flatten,
        x ∈ (crawlLoop oracle d frontier v rs tr).1) := by
  intro d
  induction d with
  | zero => intro frontier v rs tr h1 _ h3 _ _ h6 h7; exact ⟨h1, h3, h6, h7⟩
  | succ d ih =>
    intro frontier v rs tr h1 h2 h3 h4 h5 h6 h7
    rw [crawlLoop]
    dsimp only
    have husid : (frontier.filter (fun u => decide (normalize_url u ∉ v))).map normalize_url =
        frontier.filter (fun u => decide (normalize_url u ∉ v)) := by
      rw [show frontier.filter (fun u => decide (normalize_url u ∉ v)) =
          (frontier.filter (fun u => decide (normalize_url u ∉ v))).map id by
        rw [List.map_id]]
      rw [List.map_map]
      apply List.map_congr_left
      intro x hx
      exact h5 x (List.mem_filter.mp hx).1
    rw [husid]
    set us := frontier.filter (fun u => decide (normalize_url u ∉ v)) with hus
    have husnodup : us.Nodup := h4.filter _
    have husnorm : ∀ u ∈ us, normalize_url u = u :=
      fun u hu => h5 u (List.mem_filter.mp hu).1
    have husnotv : ∀ u ∈ us, u ∉ v := by
      intro u hu
      have := of_decide_eq_true (List.mem_filter.mp hu).2
      rwa [husnorm u hu] at this
    split
    · exact ⟨h1, h3, h6, h7⟩
    · obtain ⟨hvis, hres, hnln, hnlnorm⟩ := processFold_spec oracle us ⟨v, rs, []⟩
        husnodup husnotv husnorm List.nodup_nil (by intro x hx; exact absurd hx (List.not_mem_nil x))
      unfold processLevel
      refine ih _ _ _ _ ?_ ?_ ?_ ?_ ?_ ?_ ?_
      · rw [hvis]
        rw [List.nodup_append]
        exact ⟨h1, husnodup, fun a ha hau => husnotv a hau ha⟩
      · rw [hvis, hres]
        intro r hr
        rw [List.mem_append] at hr
        rw [List.mem_append]
        rcases hr with hr | hr
        · exact Or.inl (h2 r hr)
        · obtain ⟨u, hu, rfl⟩ := List.mem_map.mp hr
          right
          unfold fetchPage
          dsimp only
          rw [husnorm u (List.mem_filter.mp hu).1]
          exact (List.mem_filter.mp hu).1
      · rw [hres, List.map_append]
        have hmapnew : ((us.filter (fetchOk oracle)).map (fetchPage oracle)).map
            (fun r => normalize_url r.url) = us.filter (fetchOk oracle) := by
          rw [List.map_map]
          rw [show us.filter (fetchOk oracle) = (us.filter (fetchOk oracle)).map id by
            rw [List.map_id]]
          rw [List.map_map]
          apply List.map_congr_left
          intro x hx
          simp only [Function.comp_apply, fetchPage, id]
          exact husnorm x (by
            have := List.mem_filter.mp hx
            exact (List.mem_filter.mp (by simpa using hx)).1)
        rw [hmapnew]
        rw [List.nodup_append]
        refine ⟨h3, husnodup.filter _, ?_⟩
        intro a ha hau
        obtain ⟨r, hr, rfl⟩ := List.mem_map.mp ha
        exact husnotv _ (List.mem_filter.mp hau).1 (h2 r hr)
      · exact hnln
      · exact hnlnorm
      · rw [List.flatten_append]
        simp only [List.flatten_cons, List.flatten_nil, List.append_nil]
        rw [List.nodup_append]
        exact ⟨h6, husnodup, fun a ha hau => husnotv a hau (h7 a ha)⟩
      · intro x hx
        rw [List.flatten_append] at hx
        simp only [List.flatten_cons, List.flatten_nil, List.append_nil] at hx
        rw [hvis, List.mem_append]
        rcases List.mem_append.mp hx with hx | hx
        · exact Or.inl (h7 x hx)
        · exact Or.inr hx

/-- The paragraph / sentence part of the break cascade, rephrased with
explicit containment guards. -/
lemma chooseEndPara_amended (cs start : Nat) (w : Str) :
    chooseEndPara cs start (start + cs) w =
      (if containsSub paraMark w then
        (if past30 cs (lastIdx paraMark w) then start + lastIdx paraMark w else start + cs)
      else if containsSub sentMark w then
        (if past30 cs (lastIdx sentMark w) then start + lastIdx sentMark w + 1 else start + cs)
      else start + cs) := by
  unfold chooseEndPara containsSub lastIdx
  cases hp : rfindSub paraMark w with
  | some lb => simp
  | none =>
    cases hs : rfindSub sentMark w with
    | some lp => simp
    | none => simp

/-- C1, amended: the chunker's break-point cascade equals the amended
description — the fence rule falls through when its last occurrence is at or
below the 30% threshold, but a paragraph break below the threshold yields
the full window without consulting the sentence rule; in particular (second
conjunct), when no accepted fence exists and the last paragraph break is at
or below the threshold, the selected break is the full window even if an
acceptable sentence break exists. -/
theorem c1_spec (cs start : Nat) (w : Str) :
    chooseEnd cs start w = chooseEndAmended cs start w ∧
    (∀ lb, rfindSub paraMark w = some lb → past30 cs lb = false →
      (∀ cb, rfindSub fenceMark w = some cb → past30 cs cb = false) →
      chooseEnd cs start w = start + cs) := by
  constructor
  · unfold chooseEnd chooseEndAmended
    cases hf : rfindSub fenceMark w with
    | some cb =>
      by_cases hpf : past30 cs cb
      · simp [containsSub, hf, lastIdx, hpf]
      · simp only [containsSub, hf, lastIdx, Option.isSome_some, Option.getD_some, hpf,
          Bool.and_false, Bool.false_eq_true, if_false]
        exact chooseEndPara_amended cs start w
    | none =>
      simp only [containsSub, hf, lastIdx, Option.isSome_none, Bool.false_and,
        Bool.false_eq_true, if_false, Option.getD_none]
      exact chooseEndPara_amended cs start w
  · intro lb hlb hpth hfn
    have hp : chooseEndPara cs start (start + cs) w = start + cs := by
      unfold chooseEndPara
      rw [hlb]
      simp [hpth]
    unfold chooseEnd
    cases hf : rfindSub fenceMark w with
    | some cb =>
      have hcb := hfn cb hf
      simp [hcb, hp]
    | none => simp [hp]

/-- C1, counterexample: a window whose only paragraph break sits at offset 0
(at or below the 30% threshold) and whose last sentence break sits past the
threshold; the claimed cascade picks the sentence break (offset 5), the code
takes the full window (offset 10), and the emitted chunks differ
accordingly. -/
theorem c1_counterexample :
    rfindSub paraMark "\n\nab. cdef".data = some 0 ∧
    past30 10 0 = false ∧
    rfindSub sentMark "\n\nab. cdef".data = some 4 ∧
    past30 10 4 = true ∧
    chooseEnd 10 0 "\n\nab. cdef".data = 10 ∧
    chooseEndClaim 10 0 "\n\nab. cdef".data = 5 ∧
    chooseEnd 10 0 "\n\nab. cdef".data ≠ chooseEndClaim 10 0 "\n\nab. cdef".data ∧
    smart_chunk_markdown "\n\nab. cdefXYZ".data 10 = ["ab. cdef".data, "XYZ".data] := by
  decide

/-- C1, witness: the amended cascade evaluated on the counterexample
window. -/
theorem c1_witness :
    chooseEnd 10 0 "\n\nab. cdef".data = chooseEndAmended 10 0 "\n\nab. cdef".data ∧
    chooseEnd 10 0 "\n\nab. cdef".data = 0 + 10 := by
  refine ⟨(c1_spec 10 0 "\n\nab. cdef".data).1, ?_⟩
  refine (c1_spec 10 0 "\n\nab. cdef".data).2 0 (by decide) (by decide) ?_
  intro cb hcb
  have hnone : rfindSub fenceMark "\n\nab. cdef".data = none := by decide
  rw [hnone] at hcb
  exact Option.noConfusion hcb

/-- C2, amended: empty input yields `[]`; non-empty input no longer than
`target_size` yields exactly `[trim(text)]` — including `[""]` when the text
trims to empty; and every chunk except possibly the final remainder is
non-empty (the final remainder is appended without the emptiness check). -/
theorem c2_spec (text : Str) (cs : Nat) :
    smart_chunk_markdown [] cs = [] ∧
    (0 < text.length → text.length ≤ cs → smart_chunk_markdown text cs = [strip text]) ∧
    (∀ c ∈ (smart_chunk_markdown text cs).dropLast, c ≠ []) := by
  refine ⟨?_, ?_, ?_⟩
  · simp [smart_chunk_markdown, chunkLoop]
  · intro h1 h2
    unfold smart_chunk_markdown
    rw [chunkLoop]
    simp [h1, h2]
  · cases hres : chunkLoop cs text (text.length + 1) 0 [] with
    | none => simp [smart_chunk_markdown, hres]
    | some l =>
      have : smart_chunk_markdown text cs = l := by simp [smart_chunk_markdown, hres]
      rw [this]
      exact chunkLoop_dropLast text _ 0 [] _
        (fun c hc => absurd hc (List.not_mem_nil c)) hres

/-- C2, counterexample: whitespace-only input within `target_size` trims to
empty, yet the chunker emits the empty chunk rather than an empty list. -/
theorem c2_counterexample :
    strip "   ".data = [] ∧
    smart_chunk_markdown "   ".data 5 = [[]] ∧
    smart_chunk_markdown "   ".data 5 ≠ [] := by decide

/-- C2, witness: the amended edge cases evaluated on concrete inputs. -/
theorem c2_witness :
    smart_chunk_markdown [] 10 = [] ∧
    smart_chunk_markdown "hi".data 10 = [strip "hi".data] ∧
    "ab. cdef".data ≠ [] := by
  refine ⟨(c2_spec "hi".data 10).1,
    (c2_spec "hi".data 10).2.1 (by decide) (by decide), ?_⟩
  exact (c2_spec "\n\nab. cdefXYZ".data 10).2.2 "ab. cdef".data (by decide)

/-- C8: the chunks are, in order, the trimmed images of a partition of the
input into contiguous spans covering the whole text (whitespace-only dropped
chunks merge into the following span's leading whitespace). -/
theorem c8_spec (text : Str) (cs : Nat) (hcs : 1 ≤ cs) :
    ∃ spans : List Str, spans.flatten = text ∧
      smart_chunk_markdown text cs = spans.map strip := by
  obtain ⟨spans, h1, h2⟩ :=
    chunkLoop_spans hcs text (text.length + 1) 0 [] (by omega) (by omega)
  refine ⟨spans, by simpa using h1, ?_⟩
  simp only [smart_chunk_markdown, h2, Option.getD_some, List.nil_append]

/-- C8, witness: a concrete partition for a three-chunk input. -/
theorem c8_witness :
    ∃ spans : List Str, spans.flatten = "hello world".data ∧
      smart_chunk_markdown "hello world".data 5 = spans.map strip :=
  c8_spec "hello world".data 5 (by decide)

/-- C9: fragment-stripping URL normalization is idempotent. -/
theorem c9_spec (u : Str) : normalize_url (normalize_url u) = normalize_url u :=
  normalize_url_idem u

/-- C10: with `target_size ≥ 1` the loop finishes within `length + 1`
iterations because each selected break strictly advances the cursor; with
`target_size = 0` and non-empty input, no amount of fuel suffices — the
Python loop never terminates, making `target_size ≥ 1` a necessary
precondition. -/
theorem c10_spec (text : Str) (cs : Nat) :
    (1 ≤ cs → (chunkLoop cs text (text.length + 1) 0 []).isSome = true) ∧
    (∀ start w, 1 ≤ cs → start < chooseEnd cs start w) ∧
    (text ≠ [] → ∀ fuel acc, chunkLoop 0 text fuel 0 acc = none) :=
  ⟨fun h => chunkLoop_isSome h text _ 0 [] (by omega),
   fun start w h => chooseEnd_gt cs start w h,
   fun h fuel acc => chunkLoop_zero h fuel acc⟩

/-- C10, witness: termination, advancement and the `target_size = 0`
divergence evaluated on concrete inputs. -/
theorem c10_witness :
    (chunkLoop 2 "abc".data 4 0 []).isSome = true ∧
    0 < chooseEnd 2 0 "ab".data ∧
    chunkLoop 0 "abc".data 7 0 [] = none :=
  ⟨(c10_spec "abc".data 2).1 (by decide),
   (c10_spec "abc".data 2).2.1 0 "ab".data (by decide),
   (c10_spec "abc".data 2).2.2 (by decide) 7 []⟩

lemma map_normalize_id {l : List Str} (h : ∀ x ∈ l, normalize_url x = x) :
    l.map normalize_url = l := by
  rw [show l.map normalize_url = l ↔ l.map normalize_url = l.map id by rw [List.map_id]]
  exact List.map_congr_left h

/-- C3: over any oracle, seed set and depth — the final visited set has no
duplicate, the normalized URLs of the returned page results have no
duplicate, the dispatch trace has no duplicate globally (no URL, in
particular no failed URL, is ever re-dispatched at a later level), and every
dispatched URL (failed ones included) is marked visited. -/
theorem c3_spec (oracle : Str → FetchResult) (seeds : List Str) (d : Nat) :
    (crawlLoop oracle d (setOfList (seeds.map normalize_url)) [] [] []).1.Nodup ∧
    ((crawl_recursive_internal_links oracle seeds d).map
      (fun r => normalize_url r.url)).Nodup ∧
    (crawlLoop oracle d (setOfList (seeds.map normalize_url)) [] [] []).2.2.flatten.Nodup ∧
    (∀ u ∈ (crawlLoop oracle d (setOfList (seeds.map normalize_url)) [] [] []).2.2.flatten,
      u ∈ (crawlLoop oracle d (setOfList (seeds.map normalize_url)) [] [] []).1) := by
  obtain ⟨a, b, c, e⟩ := crawlLoop_inv oracle d (setOfList (seeds.map normalize_url)) [] [] []
    List.nodup_nil
    (fun r hr => absurd hr (List.not_mem_nil r))
    (by simp)
    (setOfList_nodup _)
    (setOfList_normalized seeds)
    (by simp)
    (by simp)
  exact ⟨a, b, c, e⟩

/-- C3, witness: the invariants evaluated on a concrete one-seed crawl. -/
theorem c3_witness :
    (crawlLoop oracleA 1 (setOfList (["http://a.com".data].map normalize_url)) [] [] []).1.Nodup ∧
    "http://a.com".data ∈
      (crawlLoop oracleA 1 (setOfList (["http://a.com".data].map normalize_url)) [] [] []).1 := by
  refine ⟨(c3_spec oracleA ["http://a.com".data] 1).1, ?_⟩
  exact (c3_spec oracleA ["http://a.com".data] 1).2.2.2 "http://a.com".data (by decide)

/-- C4, amended: `max_depth = 0` dispatches nothing and returns the empty
list (the `for depth in range(max_depth)` loop body never runs); it is
`max_depth = 1` that returns exactly the successfully fetched seed URLs with
no link expansion. -/
theorem c4_spec (oracle : Str → FetchResult) (seeds : List Str) :
    crawl_recursive_internal_links oracle seeds 0 = [] ∧
    crawl_recursive_internal_links oracle seeds 1 =
      ((setOfList (seeds.map normalize_url)).filter (fetchOk oracle)).map
        (fetchPage oracle) := by
  constructor
  · rfl
  · unfold crawl_recursive_internal_links
    rw [crawlLoop]
    dsimp only
    have hfil : (setOfList (seeds.map normalize_url)).filter
        (fun u => decide (normalize_url u ∉ ([] : List Str))) =
        setOfList (seeds.map normalize_url) := by
      apply List.filter_eq_self.mpr
      intro a _
      simp
    rw [hfil, map_normalize_id (setOfList_normalized seeds)]
    split
    · next h => rw [h]; simp
    · next h =>
      obtain ⟨_, hres, _, _⟩ := processFold_spec oracle (setOfList (seeds.map normalize_url))
        ⟨[], [], []⟩
        (setOfList_nodup _)
        (fun u _ => List.not_mem_nil u)
        (setOfList_normalized seeds)
        List.nodup_nil
        (fun x hx => absurd hx (List.not_mem_nil x))
      rw [crawlLoop]
      dsimp only
      unfold processLevel
      rw [hres]
      simp

/-- C4, counterexample: a crawl with `max_depth = 0` over an oracle that
fetches the seed successfully returns the empty list, not the seed page. -/
theorem c4_counterexample :
    crawl_recursive_internal_links oracleA ["http://a.com".data] 0 = [] ∧
    (oracleA "http://a.com".data).success = true ∧
    crawl_recursive_internal_links oracleA ["http://a.com".data] 0 ≠
      [⟨"http://a.com".data, "m".data⟩] := by decide

/-- C5, amended: a non-200 status or an unparsable XML body degrades to an
empty URL list (never an error), but an exception raised by the fetch itself
propagates out of the resolver uncaught — the `requests.get` call sits
outside the `try` block. -/
theorem c5_spec (fetch : Str → Except Str SitemapResp) (url : Str) :
    (∀ e, fetch url = .error e → parse_sitemap fetch url = .error e) ∧
    (∀ resp, fetch url = .ok resp →
      (∃ l, parse_sitemap fetch url = .ok l) ∧
      (resp.status ≠ 200 → parse_sitemap fetch url = .ok []) ∧
      (resp.locTexts = none → parse_sitemap fetch url = .ok [])) := by
  constructor
  · intro e he
    unfold parse_sitemap
    rw [he]
  · intro resp hr
    unfold parse_sitemap
    rw [hr]
    dsimp only
    refine ⟨?_, ?_, ?_⟩
    · by_cases hs : (resp.status == 200) = true
      · simp only [hs, if_true]
        cases hl : resp.locTexts with
        | none => exact ⟨[], rfl⟩
        | some l => exact ⟨l, rfl⟩
      · rw [if_neg hs]
        exact ⟨[], rfl⟩
    · intro hne
      rw [if_neg (by simpa using hne)]
    · intro hl
      rw [hl]
      split <;> rfl

/-- C5, counterexample: a network error raised by the fetch propagates out
of `parse_sitemap` instead of yielding an empty list. -/
theorem c5_counterexample :
    parse_sitemap fetchConnError "http://e.com/sitemap.xml".data =
      Except.error "ConnectionError".data ∧
    parse_sitemap fetchConnError "http://e.com/sitemap.xml".data ≠ Except.ok [] := by
  refine ⟨rfl, ?_⟩
  intro h
  exact Except.noConfusion h

/-- C5, witness: the soft-failure paths evaluated on a 404 response. -/
theorem c5_witness :
    parse_sitemap fetch404 "http://e.com/sitemap.xml".data = Except.ok [] :=
  ((c5_spec fetch404 "http://e.com/sitemap.xml".data).2
    ⟨404, some ["u".data]⟩ rfl).2.1 (by decide)

lemma storeFold_sub (store : Str → Bool) (cs : Nat) :
    ∀ (rsl : List PageResult) (init : Nat × List Str) (x : Str), x ∈ init.2 →
      x ∈ (rsl.foldl (fun (acc : Nat × List Str) r =>
        if !r.markdown.isEmpty then
          (acc.1 + (smart_chunk_markdown r.markdown cs).length,
           acc.2 ++ if add_documents_to_supabase store r.url then [r.url] else [])
        else acc) init).2 := by
  intro rsl
  induction rsl with
  | nil => intro init x hx; exact hx
  | cons r rsl ih =>
    intro init x hx
    rw [List.foldl_cons]
    apply ih
    dsimp only
    split
    · rw [List.mem_append]; exact Or.inl hx
    · exact hx

lemma storeFold_mem (store : Str → Bool) (cs : Nat) :
    ∀ (rsl : List PageResult) (init : Nat × List Str) (r : PageResult), r ∈ rsl →
      (!r.markdown.isEmpty) = true → store r.url = true →
      r.url ∈ (rsl.foldl (fun (acc : Nat × List Str) r =>
        if !r.markdown.isEmpty then
          (acc.1 + (smart_chunk_markdown r.markdown cs).length,
           acc.2 ++ if add_documents_to_supabase store r.url then [r.url] else [])
        else acc) init).2 := by
  intro rsl
  induction rsl with
  | nil => intro init r hr; exact absurd hr (List.not_mem_nil r)
  | cons r0 rsl ih =>
    intro init r hr hmd hst
    rcases List.mem_cons.mp hr with rfl | hr
    · rw [List.foldl_cons]
      apply storeFold_sub
      dsimp only
      rw [if_pos hmd]
      dsimp only
      rw [List.mem_append]
      right
      unfold add_documents_to_supabase
      rw [if_pos hst]
      exact List.mem_singleton.mpr rfl
    · rw [List.foldl_cons]
      exact ih _ r hr hmd hst

/-- C6: the ingestion loop always reports `success = true`, and a store
write failure for one URL leaves the sibling URLs' writes untouched — every
page with non-empty markdown whose write succeeds appears among the stored
URLs regardless of other pages' failures.  (`add_documents_to_supabase` is
modelled from the spec, see its doc comment: it absorbs per-URL failures.) -/
theorem c6_spec (store : Str → Bool) (cs : Nat) (results : List PageResult) :
    (processAndStore store cs results).success = true ∧
    (∀ r ∈ results, (!r.markdown.isEmpty) = true → store r.url = true →
      r.url ∈ (processAndStore store cs results).storedUrls) := by
  constructor
  · rfl
  · intro r hr hmd hst
    unfold processAndStore
    dsimp only
    exact storeFold_mem store cs results (0, []) r hr hmd hst

/-- C6, witness: with the write for page `a` failing, the sibling page `b`
is still stored and the call still reports success. -/
theorem c6_witness :
    (processAndStore storeB 5 [⟨"a".data, "x".data⟩, ⟨"b".data, "y".data⟩]).success = true ∧
    "b".data ∈ (processAndStore storeB 5
      [⟨"a".data, "x".data⟩, ⟨"b".data, "y".data⟩]).storedUrls := by
  refine ⟨(c6_spec storeB 5 [⟨"a".data, "x".data⟩, ⟨"b".data, "y".data⟩]).1, ?_⟩
  exact (c6_spec storeB 5 [⟨"a".data, "x".data⟩, ⟨"b".data, "y".data⟩]).2
    ⟨"b".data, "y".data⟩ (by decide) (by decide) (by decide)

/-- C7, amended: classification returns `Sitemap` iff the *full URL string*
ends in `sitemap.xml` or the parsed path contains `sitemap`; else
`TextResource` iff the URL ends in `.txt`; else `Page` — the sitemap check
(on the whole URL, not just the path) takes precedence over the extension
check. -/
theorem c7_spec (url : Str) :
    (classify url = CrawlType.sitemap ↔
      (endsWith url "sitemap.xml".data = true ∨
       containsSub "sitemap".data (urlparse url).path = true)) ∧
    (classify url = CrawlType.txtFile ↔
      (endsWith url "sitemap.xml".data = false ∧
       containsSub "sitemap".data (urlparse url).path = false ∧
       endsWith url ".txt".data = true)) ∧
    (classify url = CrawlType.webpage ↔
      (endsWith url "sitemap.xml".data = false ∧
       containsSub "sitemap".data (urlparse url).path = false ∧
       endsWith url ".txt".data = false)) := by
  unfold classify is_sitemap is_txt
  by_cases h1 : endsWith url "sitemap.xml".data = true <;>
    by_cases h2 : containsSub "sitemap".data (urlparse url).path = true <;>
      by_cases h3 : endsWith url ".txt".data = true <;>
        simp_all

/-- C7, counterexample: a URL whose query string (not its path) makes the
whole URL end in `sitemap.xml` is classified `Sitemap` by the code, while
the claim's path-only criterion classifies it `Page`. -/
theorem c7_counterexample :
    classify "http://example.com/page?q=sitemap.xml".data = CrawlType.sitemap ∧
    containsSub "sitemap".data
      (urlparse "http://example.com/page?q=sitemap.xml".data).path = false ∧
    classifyClaim "http://example.com/page?q=sitemap.xml".data = CrawlType.webpage ∧
    classify "http://example.com/page?q=sitemap.xml".data ≠
      classifyClaim "http://example.com/page?q=sitemap.xml".data := by decide
